import Mathlib

/-!
Verification of `metalsmith-link-checker` (`src/lib/index.js`).

A shallow embedding of the link-checker plugin's core pipeline, translated from
the authoritative version of `src/lib/index.js` (the version whose line numbers
the specification cites: `flipObjectOfArrays` at 231–244, `validUrl` at 316–344,
`validLocal` at 353–370, `protocolValidators` at 375–381, and the plugin
entrypoint at 388–484).

Modelling conventions:
* JavaScript objects with string keys are modelled as association lists
  `List (String × α)` in insertion order; `obj[k]` is modelled by a first-match
  lookup, `obj[k] = v` by a first-match update (append when the key is absent).
* The Node `path.posix` functions used by `validLocal` (`path.dirname`,
  `path.join`) are modelled segment-wise, faithful to Node's normalization
  (`.`/`..` resolution, trailing-separator preservation, `dirname`'s scan that
  never treats index 0 as the directory separator).
* The property read `output[val]` in `flipObjectOfArrays` consults the
  prototype chain: for a value named like an `Object.prototype` property the
  `=== undefined` initialisation guard is false and `output[val].push` throws
  a `TypeError`. The flip step is therefore modelled as fallible (`Option`),
  `none` standing for the thrown `TypeError`, which propagates out of the
  plugin function so that `done` is never invoked.
* The network is an oracle `net : String → String → NetEvent` mapping a URL and
  an HTTP method to either a response with a status code or an `'error'` event
  carrying the error's message (Node guarantees `Error.message` is a string).
  The `if (!res)` branch of `validUrl` is unreachable (the `http`/`https`
  response callback never receives a falsy response), so it has no model state.
* The WHATWG URL parser behind `urlParse` is modelled by its scheme-extraction
  behaviour: a parse finds a protocol exactly when the input starts with an
  ASCII-alpha scheme (followed by alphanumerics, `+`, `-`, `.`) terminated by a
  colon, and the reported protocol is the lowercased scheme plus the colon.
-/

/-! ## Strings and JavaScript lexicographic sort -/

/-- Strict lexicographic order on character lists by code point; this is the
comparison underlying JavaScript's default `Array.prototype.sort` on the
(ASCII) strings that occur here. -/
def strLtChars : List Char → List Char → Bool
  | [], [] => false
  | [], _ :: _ => true
  | _ :: _, [] => false
  | a :: as, b :: bs =>
    if a.toNat < b.toNat then true
    else if b.toNat < a.toNat then false
    else strLtChars as bs

/-- Insert a string into a lexicographically sorted list. -/
def insertSorted (x : String) : List String → List String
  | [] => [x]
  | y :: ys => if strLtChars x.data y.data then x :: y :: ys else y :: insertSorted x ys

/-- Model of JavaScript's `Array.prototype.sort()` (default lexicographic
comparator) on a list of strings. -/
def sortStrings (l : List String) : List String :=
  l.foldr insertSorted []

/-! ## JavaScript object model -/

/-- Model of JavaScript property read `obj[k]` on an object held as an
association list in insertion order: the first entry with the given key. -/
def findEntry {α : Type} : List (String × α) → String → Option (String × α)
  | [], _ => none
  | kv :: rest, k => if kv.1 = k then some kv else findEntry rest k

/-- Model of `obj[k]` returning the stored value (`none` when the key is
absent, i.e. the JavaScript value is `undefined`). -/
def lookupJs {α : Type} (l : List (String × α)) (k : String) : Option α :=
  (findEntry l k).map Prod.snd

/-- Reading `obj[k]` for the objects of this plugin whose values are arrays:
an absent key reads as the empty list. -/
def getVal (l : List (String × List String)) (k : String) : List String :=
  (lookupJs l k).getD []

/-- Model of JavaScript property write `obj[k] = v`: replace the value at the
first entry with this key, or append a new entry. -/
def setVal : List (String × List String) → String → List String → List (String × List String)
  | [], k, v => [(k, v)]
  | kv :: rest, k, v => if kv.1 = k then (k, v) :: rest else kv :: setVal rest k v

/-- The own property names of `Object.prototype` in Node. The `in` operator
used by `validLocal` consults the prototype chain, so these names test as
present in every plain object. -/
def objectPrototypeKeys : List String :=
  ["constructor", "__defineGetter__", "__defineSetter__", "hasOwnProperty",
   "__lookupGetter__", "__lookupSetter__", "isPrototypeOf",
   "propertyIsEnumerable", "toString", "valueOf", "__proto__", "toLocaleString"]

/-- Model of the JavaScript expression `key in obj` for a plain object whose
own keys are `files`: own keys plus the `Object.prototype` property names. -/
def jsIn (key : String) (files : List String) : Bool :=
  files.contains key || objectPrototypeKeys.contains key

/-! ## `flipObjectOfArrays` (src/lib/index.js lines 231–244) -/

/-- The non-throwing push step: append `key` to the entry for `val`, creating
the entry at the end when absent. This is what one `output[val].push(key)`
iteration computes whenever it does not throw. -/
def pushEntry : List (String × List String) → String → String → List (String × List String)
  | [], v, k => [(v, [k])]
  | kv :: rest, v, k =>
    if kv.1 = v then (kv.1, kv.2 ++ [k]) :: rest else kv :: pushEntry rest v k

/-- One `output[val].push(key)` step of `flipObjectOfArrays` (lines 237–240).
The read `output[val]` consults the prototype chain: when `val` is not an own
key but is an `Object.prototype` property name, the `=== undefined` test is
false, the initialisation is skipped, and `output[val].push` throws a
`TypeError` (modelled as `none`). Otherwise `key` is appended to the entry for
`val`, which is created at the end when absent. -/
def pushAssoc : List (String × List String) → String → String →
    Option (List (String × List String))
  | [], v, k =>
    if objectPrototypeKeys.contains v then none else some [(v, [k])]
  | kv :: rest, v, k =>
    if kv.1 = v then some ((kv.1, kv.2 ++ [k]) :: rest)
    else (pushAssoc rest v k).map (fun out => kv :: out)

/-- The inner `forEach` of `flipObjectOfArrays`: push each value of one
document's array in order, propagating a thrown `TypeError`. -/
def flipPushList : List (String × List String) → List String → String →
    Option (List (String × List String))
  | out, [], _ => some out
  | out, v :: vs, key =>
    match pushAssoc out v key with
    | none => none
    | some out2 => flipPushList out2 vs key

/-- The outer `forEach` of `flipObjectOfArrays` over the input's keys in
insertion order, propagating a thrown `TypeError`. -/
def flipDocs : List (String × List String) → List (String × List String) →
    Option (List (String × List String))
  | out, [] => some out
  | out, kv :: rest =>
    match flipPushList out kv.2 kv.1 with
    | none => none
    | some out2 => flipDocs out2 rest

/-- The function `flipObjectOfArrays`: for each key of the input (in insertion
order) and each value in its array (in order), push the key onto the output
entry for that value. The result is `none` when some pushed value is an
`Object.prototype` property name: the real code throws a `TypeError` there
and produces no mapping at all. -/
def flipObjectOfArrays (input : List (String × List String)) :
    Option (List (String × List String)) :=
  flipDocs [] input

/-- The mapping a successful flip returns: the same push steps, in the same
order, via the non-throwing `pushEntry`. -/
def flipEntries (input : List (String × List String)) : List (String × List String) :=
  input.foldl (fun output kv => kv.2.foldl (fun out v => pushEntry out v kv.1) output) []

/-- The citing documents of a reference `r`, in citation-scan order, one entry
per citation: for each document (in order), one copy of the document key per
occurrence of `r` in its reference list. -/
def citations (input : List (String × List String)) (r : String) : List String :=
  input.flatMap (fun kv => (kv.2.filter (fun x => x = r)).map (fun _ => kv.1))

/-! ## Node `path.posix` model -/

/-- Split a character list into the `/`-separated segments (as strings),
keeping empty segments. -/
def splitSlashAux : List Char → List Char → List String
  | [], seg => [String.mk seg.reverse]
  | c :: rest, seg =>
    if c = '/' then String.mk seg.reverse :: splitSlashAux rest []
    else splitSlashAux rest (c :: seg)

/-- The `.`/`..`-resolution core of Node's `path.posix.normalize`
(`normalizeString`): process the non-empty segments left to right against a
stack (held reversed); `..` pops a non-`..` top, is dropped at the root of an
absolute path, and accumulates otherwise. -/
def normSegsAux : List String → Bool → List String → List String
  | [], _, stk => stk.reverse
  | s :: rest, allow, stk =>
    if s = "." then normSegsAux rest allow stk
    else if s = ".." then
      match stk with
      | [] => normSegsAux rest allow (if allow then [".."] else [])
      | t :: stk2 =>
        if t = ".." then normSegsAux rest allow (if allow then ".." :: t :: stk2 else t :: stk2)
        else normSegsAux rest allow stk2
    else normSegsAux rest allow (s :: stk)

/-- Model of Node `path.posix.normalize`: resolve `.` and `..`, collapse
separators, keep one trailing separator, return `.`/`/`/`./` for the empty
results exactly as Node does. -/
def normalizePath (p : String) : String :=
  if p = "" then "."
  else
    let isAbs := p.data.head? = some '/'
    let trailing := p.data.getLast? = some '/'
    let segs := (splitSlashAux p.data []).filter (fun s => s ≠ "")
    let body := String.intercalate "/" (normSegsAux segs (!isAbs) [])
    if body = "" then (if isAbs then "/" else if trailing then "./" else ".")
    else
      let body2 := if trailing then body ++ "/" else body
      if isAbs then "/" ++ body2 else body2

/-- Model of Node `path.posix.join` on two arguments: drop empty arguments,
join with `/`, normalize; `.` when both are empty. -/
def pjoin (a b : String) : String :=
  if a = "" ∧ b = "" then "."
  else if a = "" then normalizePath b
  else if b = "" then normalizePath a
  else normalizePath (a ++ "/" ++ b)

/-- Model of Node `path.posix.dirname`: scan from the end skipping trailing
separators, then skip the last segment; the separator found there (never at
index 0) ends the directory part. -/
def dirname (p : String) : String :=
  match p.data with
  | [] => "."
  | c0 :: rest =>
    let hasRoot := c0 = '/'
    let rev := (c0 :: rest).reverse
    let rev2 := (rev.dropWhile (fun c => c = '/')).dropWhile (fun c => c ≠ '/')
    if rev2.length ≤ 1 then (if hasRoot then "/" else ".")
    else if hasRoot ∧ rev2.length - 1 = 1 then "//"
    else String.mk ((c0 :: rest).take (rev2.length - 1))

/-! ## `validLocal` (src/lib/index.js lines 353–370) -/

/-- Does a character list contain a path separator (`/` or `\`)? -/
def containsSlash (cs : List Char) : Bool :=
  cs.any (fun c => c = '/' || c = '\\')

/-- The replacement `dest.replace(/#[^/\\]*$/, '')`: cut the string at the
leftmost `#` that is followed only by non-separator characters (that is, the
first `#` of the final path segment), if any. -/
def stripFragAux : List Char → List Char
  | [] => []
  | c :: rest =>
    if c = '#' ∧ ¬ containsSlash rest then []
    else c :: stripFragAux rest

/-- Strip a trailing `#fragment` from a reference, exactly as
`dest.replace(/#[^/\\]*$/, '')` does. -/
def stripFragment (dest : String) : String :=
  String.mk (stripFragAux dest.data)

/-- The function `validLocal(files, src, dest)`: strip the trailing fragment; an empty
string, `.` or `./` (before or after joining onto `dirname src`) is a valid
self-reference; otherwise the joined path or its `index.html` variant must
test present in the file-set object with the JavaScript `in` operator. -/
def validLocal (files : List String) (src dest : String) : Bool :=
  let dest2 := stripFragment dest
  if dest2 = "" ∨ dest2 = "." ∨ dest2 = "./" then true
  else
    let linkPath := pjoin (dirname src) dest2
    if linkPath = "" ∨ linkPath = "." ∨ linkPath = "./" then true
    else jsIn linkPath files || jsIn (pjoin linkPath "index.html") files

/-! ## `urlParse` / scheme dispatch -/

/-- A character allowed after the first character of a URL scheme. -/
def isSchemeChar (c : Char) : Bool :=
  c.isAlphanum || c = '+' || c = '-' || c = '.'

/-- Model of `urlParse(link).protocol` (the WHATWG `URL` constructor wrapped
to return `{}` on failure): `some` of the lowercased scheme with its trailing
colon when the input starts with an ASCII-alpha scheme terminated by `:`,
`none` (no protocol) otherwise. -/
def urlProtocol (s : String) : Option String :=
  match s.data with
  | [] => none
  | c :: rest =>
    if ¬ c.isAlpha then none
    else
      let schemeChars := (c :: rest).takeWhile isSchemeChar
      match (c :: rest).drop schemeChars.length with
      | ':' :: _ => some (String.mk (schemeChars.map Char.toLower) ++ ":")
      | _ => none

/-! ## `validUrl` (src/lib/index.js lines 316–344) -/

/-- What the network does with one request: the response callback fires with a
status code, or the request's `'error'` event fires with an error message. -/
inductive NetEvent : Type
  | response (statusCode : Nat)
  | failure (message : String)
deriving DecidableEq

/-- The function `validUrl(link, options, asyncCallback, method)`, instrumented with the
list of requests it issues (the `(link, method)` of every `library.request`
call). The outcome is the value passed to `asyncCallback`: `none` for valid,
`some reason` for a validation error. A `405` response to a non-`GET` request
re-attempts the same URL as a `GET`; a status in `[400, 599]` yields
`HTTP <code>`; an `'error'` event yields the error's message. -/
def validUrlRun (net : String → String → NetEvent) (link : String) (method : String) :
    Option String × List (String × String) :=
  match net link method with
  | .failure msg => (some msg, [(link, method)])
  | .response code =>
    if h : code = 405 ∧ method ≠ "GET" then
      ((validUrlRun net link "GET").1, (link, method) :: (validUrlRun net link "GET").2)
    else if 400 ≤ code ∧ code ≤ 599 then (some ("HTTP " ++ toString code), [(link, method)])
    else (none, [(link, method)])
termination_by (if method = "GET" then 0 else 1)
decreasing_by all_goals simp_all

/-! ## The per-link iteratee and the run (src/lib/index.js lines 405–482) -/

/-- The `async.mapValuesLimit` iteratee for one distinct link: parse the link;
an `http:`/`https:` protocol routes to `validUrl`; any other protocol is
assumed valid; a scheme-less link is checked with `validLocal` against every
citing filename, yielding `'not found'` when any citing file fails. The second
component is the list of network requests issued. -/
def checkLink (net : String → String → NetEvent) (files : List String)
    (link : String) (filenames : List String) : Option String × List (String × String) :=
  match urlProtocol link with
  | some p =>
    if p = "http:" ∨ p = "https:" then validUrlRun net link "HEAD"
    else (none, [])
  | none =>
    let badFilenames := filenames.filter (fun filename => ! validLocal files filename link)
    (if badFilenames.isEmpty then none else some "not found", [])

/-- The validation step of the run: flip the per-document reference mapping,
delete the links matching an ignore pattern, and compute each remaining
distinct link's outcome with `checkLink`. Returns the per-link outcome mapping
(the `result` of `async.mapValuesLimit`) and the concatenated network-request
trace — or `none` when the flip step throws a `TypeError`, in which case no
validation happens at all. -/
def checkLinks (net : String → String → NetEvent) (ignore : String → Bool)
    (files : List String) (filenamesToLinks : List (String × List String)) :
    Option (List (String × Option String) × List (String × String)) :=
  match flipObjectOfArrays filenamesToLinks with
  | none => none
  | some flipped =>
    let linksToFilenames := flipped.filter (fun kv => ! ignore kv.1)
    some (linksToFilenames.map (fun kv => (kv.1, (checkLink net files kv.1 kv.2).1)),
      linksToFilenames.flatMap (fun kv => (checkLink net files kv.1 kv.2).2))

/-- JavaScript truthiness of `result[link]`: an absent key (`undefined`), a
`null` outcome and the empty string are falsy; any other string is truthy. -/
def truthy : Option String → Bool
  | some s => s ≠ ""
  | none => false

/-- Reading `result[link]` on the outcome mapping: `none` both when the key is absent
and when the stored outcome is `null`. -/
def resultVal (results : List (String × Option String)) (link : String) : Option String :=
  (lookupJs results link).getD none

/-- The formatted error line `` `${link} (${result[link]})` ``. -/
def linkErrorLine (outcome : String → Option String) (link : String) : String :=
  link ++ " (" ++ (outcome link).getD "" ++ ")"

/-- The `linkErrors` of one document (lines 459–461):
`filenamesToLinks[filename].filter((link) => result[link]).map(...)` — the
links with a truthy outcome, formatted. -/
def errLines (results : List (String × Option String)) (links : List String) : List String :=
  (links.filter (fun link => truthy (resultVal results link))).map
    (linkErrorLine (resultVal results))

/-- The object `filenamesToLinkErrors` (lines 457–466): for each document of
`filenamesToLinks` in insertion order, keep the links whose outcome is truthy,
format them, and store the non-empty lists keyed by document. -/
def filenamesToLinkErrors (filenamesToLinks : List (String × List String))
    (results : List (String × Option String)) : List (String × List String) :=
  filenamesToLinks.foldl
    (fun obj kv =>
      if (errLines results kv.2).isEmpty then obj else setVal obj kv.1 (errLines results kv.2))
    []

/-- The message built at lines 470–477: document keys sorted, each block
`filename:` followed by its sorted, two-space-indented error lines, blocks
joined by blank lines. -/
def renderReport (ftle : List (String × List String)) : String :=
  String.intercalate "\n\n"
    ((sortStrings (ftle.map Prod.fst)).map (fun filename =>
      filename ++ ":\n" ++
        String.intercalate "\n"
          ((sortStrings (getVal ftle filename)).map (fun link => "  " ++ link))))

/-- The completion calls of the run (lines 468–481): the list of arguments
passed to `done`, in order. When the error mapping is non-empty, `done` is
invoked with the formatted message and then — there is no `return` after it —
invoked again with no argument. When the flip step throws, the exception
propagates out of the plugin function and `done` is never invoked (`none`). -/
def runDone (net : String → String → NetEvent) (ignore : String → Bool)
    (files : List String) (filenamesToLinks : List (String × List String)) :
    Option (List (Option String)) :=
  match checkLinks net ignore files filenamesToLinks with
  | none => none
  | some res =>
    let ftle := filenamesToLinkErrors filenamesToLinks res.1
    some (if ftle.isEmpty then [none]
      else [some ("Broken links found:\n\n" ++ renderReport ftle), none])

/-! ## Definitions following the specification's words (for refinement claims) -/

/-- Following the spec's words (§4.4, Local Resolver), as the claim states
them: after fragment stripping and self-reference handling, the joined path is
valid exactly when it is a key of the file set or its `index.html` variant is
a key of the file set. -/
def validLocalSpecOrig (files : List String) (src dest : String) : Bool :=
  let ref := stripFragment dest
  if ref = "" ∨ ref = "." ∨ ref = "./" then true
  else
    let joined := pjoin (dirname src) ref
    if joined = "" ∨ joined = "." ∨ joined = "./" then true
    else files.contains joined || files.contains (pjoin joined "index.html")

/-- The amended local-resolution contract: as `validLocalSpecOrig`, except
that the joined path (or its `index.html` variant) is also accepted when it is
one of the `Object.prototype` property names, which the implementation's
JavaScript `in` operator reports as present on every plain object. -/
def validLocalSpecAmended (files : List String) (src dest : String) : Bool :=
  let ref := stripFragment dest
  if ref = "" ∨ ref = "." ∨ ref = "./" then true
  else
    let joined := pjoin (dirname src) ref
    if joined = "" ∨ joined = "." ∨ joined = "./" then true
    else
      (files.contains joined || objectPrototypeKeys.contains joined) ||
      (files.contains (pjoin joined "index.html") ||
        objectPrototypeKeys.contains (pjoin joined "index.html"))

/-- Following the spec's words (§4.6, Report Aggregator): for each document,
collect the references whose outcome is an error, formatted
`<reference> (<reason>)`; omit documents with none; sort documents
lexicographically and lines within a document lexicographically; join
blocks with blank lines. -/
def reportSpec (filenamesToLinks : List (String × List String))
    (outcome : String → Option String) : String :=
  let errorDocs :=
    (filenamesToLinks.filter
      (fun kv => ! (kv.2.filter (fun l => truthy (outcome l))).isEmpty)).map Prod.fst
  String.intercalate "\n\n"
    ((sortStrings errorDocs).map (fun doc =>
      doc ++ ":\n" ++
        String.intercalate "\n"
          ((sortStrings
            (((getVal filenamesToLinks doc).filter (fun l => truthy (outcome l))).map
              (linkErrorLine outcome))).map (fun line => "  " ++ line))))

/-- Is a link routed to the remote validator (its parsed protocol has a
registered validator, i.e. is `http:` or `https:`)? -/
def isHttpLink (link : String) : Bool :=
  decide (urlProtocol link = some "http:" ∨ urlProtocol link = some "https:")

/-! ## Helper lemmas: the flip step -/

theorem getVal_nil (k : String) : getVal [] k = [] := rfl

theorem getVal_cons (kv : String × List String) (rest : List (String × List String))
    (k : String) :
    getVal (kv :: rest) k = if kv.1 = k then kv.2 else getVal rest k := by
  by_cases h : kv.1 = k <;> simp [getVal, lookupJs, findEntry, h]

theorem getVal_pushEntry (out : List (String × List String)) (v k r : String) :
    getVal (pushEntry out v k) r =
      if v = r then getVal out r ++ [k] else getVal out r := by
  induction out with
  | nil =>
    by_cases h : v = r <;> simp [pushEntry, getVal_cons, getVal_nil, h]
  | cons kv rest ih =>
    by_cases h1 : kv.1 = v
    · subst h1
      by_cases h2 : kv.1 = r <;> simp [pushEntry, getVal_cons, h2]
    · have hstep : pushEntry (kv :: rest) v k = kv :: pushEntry rest v k := by
        simp [pushEntry, h1]
      rw [hstep, getVal_cons]
      by_cases h2 : kv.1 = r
      · have hvr : ¬ v = r := fun hh => h1 (h2.trans hh.symm)
        simp [h2, getVal_cons, hvr]
      · simp [h2, ih, getVal_cons]

/-- Keys of `pushEntry`: membership. -/
theorem mem_keys_pushEntry (out : List (String × List String)) (v k r : String) :
    r ∈ (pushEntry out v k).map Prod.fst ↔ r ∈ out.map Prod.fst ∨ r = v := by
  induction out with
  | nil => simp [pushEntry, eq_comm]
  | cons kv rest ih =>
    by_cases h : kv.1 = v
    · subst h; simp [pushEntry]; tauto
    · simp [pushEntry, h, ih]; tauto

/-- Pushing with `pushEntry` preserves distinctness of keys. -/
theorem nodup_keys_pushEntry (out : List (String × List String)) (v k : String)
    (h : (out.map Prod.fst).Nodup) : ((pushEntry out v k).map Prod.fst).Nodup := by
  induction out with
  | nil => simp [pushEntry]
  | cons kv rest ih =>
    simp only [List.map_cons, List.nodup_cons] at h
    by_cases hk : kv.1 = v
    · subst hk; simpa [pushEntry] using h
    · simp only [pushEntry, hk, if_false, List.map_cons, List.nodup_cons]
      refine ⟨fun hc => ?_, ih h.2⟩
      rcases (mem_keys_pushEntry rest v k kv.1).1 hc with hm | he
      · exact h.1 hm
      · exact hk he

/-- Inner fold of `flipEntries`: pushing one document's reference list. -/
theorem getVal_innerFold (refs : List String) (key : String)
    (out : List (String × List String)) (r : String) :
    getVal (refs.foldl (fun o v => pushEntry o v key) out) r =
      getVal out r ++ (refs.filter (fun x => x = r)).map (fun _ => key) := by
  induction refs generalizing out with
  | nil => simp
  | cons v vs ih =>
    simp only [List.foldl_cons, ih, getVal_pushEntry]
    by_cases h : v = r <;> simp [h]

theorem mem_keys_innerFold (refs : List String) (key : String)
    (out : List (String × List String)) (r : String) :
    r ∈ ((refs.foldl (fun o v => pushEntry o v key) out).map Prod.fst) ↔
      r ∈ out.map Prod.fst ∨ r ∈ refs := by
  induction refs generalizing out with
  | nil => simp
  | cons v vs ih =>
    simp only [List.foldl_cons, ih, mem_keys_pushEntry, List.mem_cons]
    tauto

theorem nodup_keys_innerFold (refs : List String) (key : String)
    (out : List (String × List String)) (h : (out.map Prod.fst).Nodup) :
    (((refs.foldl (fun o v => pushEntry o v key) out)).map Prod.fst).Nodup := by
  induction refs generalizing out with
  | nil => exact h
  | cons v vs ih => exact ih _ (nodup_keys_pushEntry out v key h)

/-- Outer fold of `flipEntries`, generalized over the accumulator. -/
theorem getVal_outerFold (input : List (String × List String))
    (out : List (String × List String)) (r : String) :
    getVal (input.foldl
        (fun output kv => kv.2.foldl (fun o v => pushEntry o v kv.1) output) out) r =
      getVal out r ++ citations input r := by
  induction input generalizing out with
  | nil => simp [citations]
  | cons kv rest ih =>
    simp only [List.foldl_cons, ih, getVal_innerFold, citations, List.flatMap_cons,
      List.append_assoc]

theorem mem_keys_outerFold (input : List (String × List String))
    (out : List (String × List String)) (r : String) :
    r ∈ ((input.foldl
        (fun output kv => kv.2.foldl (fun o v => pushEntry o v kv.1) output) out).map
          Prod.fst) ↔
      r ∈ out.map Prod.fst ∨ ∃ kv ∈ input, r ∈ kv.2 := by
  induction input generalizing out with
  | nil => simp
  | cons kv rest ih =>
    simp only [List.foldl_cons, ih, mem_keys_innerFold, List.mem_cons]
    constructor
    · rintro ((h | h) | ⟨kv2, hm, hr⟩)
      · exact Or.inl h
      · exact Or.inr ⟨kv, Or.inl rfl, h⟩
      · exact Or.inr ⟨kv2, Or.inr hm, hr⟩
    · rintro (h | ⟨kv2, (rfl | hm), hr⟩)
      · exact Or.inl (Or.inl h)
      · exact Or.inl (Or.inr hr)
      · exact Or.inr ⟨kv2, hm, hr⟩

theorem nodup_keys_outerFold (input : List (String × List String))
    (out : List (String × List String)) (h : (out.map Prod.fst).Nodup) :
    ((input.foldl
        (fun output kv => kv.2.foldl (fun o v => pushEntry o v kv.1) output) out).map
          Prod.fst).Nodup := by
  induction input generalizing out with
  | nil => exact h
  | cons kv rest ih => exact ih _ (nodup_keys_innerFold kv.2 kv.1 out h)

/-- The value stored by the flip step under a reference `r` is exactly the
citation list of `r`. -/
theorem getVal_flipEntries (input : List (String × List String)) (r : String) :
    getVal (flipEntries input) r = citations input r := by
  simpa using getVal_outerFold input [] r

/-- The keys of the flip step are exactly the references cited somewhere. -/
theorem mem_keys_flipEntries (input : List (String × List String)) (r : String) :
    r ∈ ((flipEntries input).map Prod.fst) ↔ ∃ kv ∈ input, r ∈ kv.2 := by
  simpa using mem_keys_outerFold input [] r

/-- The flip step's keys are distinct. -/
theorem nodup_keys_flipEntries (input : List (String × List String)) :
    ((flipEntries input).map Prod.fst).Nodup := by
  simpa using nodup_keys_outerFold input [] (by simp)

/-- A push of a non-`Object.prototype`-named value never throws, and computes
the `pushEntry` step. -/
theorem pushAssoc_eq_pushEntry (out : List (String × List String)) (v k : String)
    (hv : v ∉ objectPrototypeKeys) : pushAssoc out v k = some (pushEntry out v k) := by
  induction out with
  | nil =>
    rw [pushAssoc, pushEntry, if_neg (by simpa using hv)]
  | cons kv rest ih =>
    by_cases h : kv.1 = v
    · rw [pushAssoc, pushEntry, if_pos h, if_pos h]
    · rw [pushAssoc, pushEntry, if_neg h, if_neg h, ih]
      rfl

/-- The inner `forEach` with only safe values never throws and computes the
total fold of `pushEntry`. -/
theorem flipPushList_safe (refs : List String) (key : String)
    (out : List (String × List String))
    (hsafe : ∀ x ∈ refs, x ∉ objectPrototypeKeys) :
    flipPushList out refs key = some (refs.foldl (fun o v => pushEntry o v key) out) := by
  induction refs generalizing out with
  | nil => rfl
  | cons v vs ih =>
    rw [flipPushList, pushAssoc_eq_pushEntry out v key (hsafe v (by simp))]
    exact ih _ (fun x hx => hsafe x (by simp [hx]))

/-- The outer `forEach` with only safe values never throws. -/
theorem flipDocs_safe (input : List (String × List String))
    (out : List (String × List String))
    (hsafe : ∀ kv ∈ input, ∀ x ∈ kv.2, x ∉ objectPrototypeKeys) :
    flipDocs out input = some (input.foldl
      (fun output kv => kv.2.foldl (fun o v => pushEntry o v kv.1) output) out) := by
  induction input generalizing out with
  | nil => rfl
  | cons kv rest ih =>
    rw [flipDocs, flipPushList_safe kv.2 kv.1 out (hsafe kv (by simp))]
    exact ih _ (fun kv2 h2 => hsafe kv2 (by simp [h2]))

/-- A flip whose cited references include no `Object.prototype` property name
does not throw: it returns exactly the mapping of the non-throwing pushes. -/
theorem flip_safe_eq (input : List (String × List String))
    (hsafe : ∀ kv ∈ input, ∀ x ∈ kv.2, x ∉ objectPrototypeKeys) :
    flipObjectOfArrays input = some (flipEntries input) :=
  flipDocs_safe input [] hsafe

/-! ## Helper lemmas: the network validator's request trace -/

/-- A `GET` attempt never retries: it issues exactly its own request. -/
theorem validUrlRun_get_trace (net : String → String → NetEvent) (link : String) :
    (validUrlRun net link "GET").2 = [(link, "GET")] := by
  rw [validUrlRun]
  cases hn : net link "GET" with
  | failure msg => simp
  | response code =>
    have hng : ¬ (code = 405 ∧ "GET" ≠ "GET") := by simp
    dsimp only
    rw [dif_neg hng]
    by_cases hb : 400 ≤ code ∧ code ≤ 599 <;> simp [hb]

/-- The request trace of a validation run is its own request, followed by a
single `GET` retry exactly when the response was a 405 on a non-`GET`. -/
theorem validUrlRun_trace (net : String → String → NetEvent) (link method : String) :
    (validUrlRun net link method).2 =
      if net link method = NetEvent.response 405 ∧ method ≠ "GET"
      then [(link, method), (link, "GET")]
      else [(link, method)] := by
  rw [validUrlRun]
  cases hn : net link method with
  | failure msg => simp
  | response code =>
    dsimp only
    by_cases h : code = 405 ∧ method ≠ "GET"
    · rw [dif_pos h]
      simp [validUrlRun_get_trace, h.1, h.2]
    · rw [dif_neg h]
      have hne : ¬ (NetEvent.response code = NetEvent.response 405 ∧ method ≠ "GET") := by
        simpa using h
      by_cases hb : 400 ≤ code ∧ code ≤ 599 <;> simp [hb, hne, h]

/-- Every request in the trace targets the link being validated. -/
theorem validUrlRun_trace_fst (net : String → String → NetEvent) (link method : String) :
    ∀ e ∈ (validUrlRun net link method).2, e.1 = link := by
  rw [validUrlRun_trace]
  by_cases h : net link method = NetEvent.response 405 ∧ method ≠ "GET" <;> simp [h]

/-- A validation run issues at most two requests. -/
theorem validUrlRun_trace_length (net : String → String → NetEvent) (link method : String) :
    (validUrlRun net link method).2.length ≤ 2 := by
  rw [validUrlRun_trace]
  by_cases h : net link method = NetEvent.response 405 ∧ method ≠ "GET" <;> simp [h]

/-- The requests issued by `checkLink`: those of the remote validator when the
link has an `http:`/`https:` protocol, and none otherwise. -/
theorem checkLink_trace (net : String → String → NetEvent) (files : List String)
    (link : String) (filenames : List String) :
    (checkLink net files link filenames).2 =
      if isHttpLink link then (validUrlRun net link "HEAD").2 else [] := by
  unfold checkLink isHttpLink
  cases hp : urlProtocol link with
  | none => simp [hp]
  | some p =>
    by_cases h : p = "http:" ∨ p = "https:" <;> simp [hp, h]

theorem checkLink_trace_fst (net : String → String → NetEvent) (files : List String)
    (link : String) (filenames : List String) :
    ∀ e ∈ (checkLink net files link filenames).2, e.1 = link := by
  rw [checkLink_trace]
  by_cases h : isHttpLink link
  · simpa [h] using validUrlRun_trace_fst net link "HEAD"
  · simp [h]

/-- Entries whose key differs from `r` contribute nothing to the `r`-requests
of the concatenated trace. -/
theorem trace_filter_of_not_mem (net : String → String → NetEvent) (files : List String)
    (l : List (String × List String)) (r : String) (h : ∀ kv ∈ l, kv.1 ≠ r) :
    (l.flatMap (fun kv => (checkLink net files kv.1 kv.2).2)).filter
        (fun e => e.1 = r) = [] := by
  induction l with
  | nil => rfl
  | cons kv rest ih =>
    simp only [List.flatMap_cons, List.filter_append]
    rw [List.filter_eq_nil_iff.mpr, ih (fun kv2 hm => h kv2 (List.mem_cons_of_mem kv hm))]
    · simp
    · intro e he
      have := checkLink_trace_fst net files kv.1 kv.2 e he
      simp only [decide_eq_true_eq]
      rw [this]
      exact h kv (List.mem_cons_self kv rest)

/-- The `r`-requests of the concatenated trace over entries with distinct keys:
exactly the requests of the unique `r`-entry's `checkLink`, if any. -/
theorem trace_filter_flatMap (net : String → String → NetEvent) (files : List String)
    (l : List (String × List String)) (r : String) (hnd : (l.map Prod.fst).Nodup) :
    ((l.flatMap (fun kv => (checkLink net files kv.1 kv.2).2)).filter
        (fun e => e.1 = r)).length =
      if r ∈ l.map Prod.fst ∧ isHttpLink r = true
      then (validUrlRun net r "HEAD").2.length else 0 := by
  induction l with
  | nil => simp
  | cons kv rest ih =>
    simp only [List.map_cons, List.nodup_cons] at hnd
    simp only [List.flatMap_cons, List.filter_append, List.length_append]
    by_cases hk : kv.1 = r
    · subst hk
      rw [List.filter_eq_self.mpr, trace_filter_of_not_mem net files rest kv.1
        (fun kv2 hm heq => hnd.1 (heq ▸ List.mem_map_of_mem Prod.fst hm))]
      · rw [checkLink_trace]
        by_cases hh : isHttpLink kv.1 <;> simp [hh]
      · intro e he
        simpa using checkLink_trace_fst net files kv.1 kv.2 e he
    · rw [List.filter_eq_nil_iff.mpr, ih hnd.2]
      · have : (r ∈ rest.map Prod.fst ∧ isHttpLink r = true) ↔
            (r ∈ kv.1 :: rest.map Prod.fst ∧ isHttpLink r = true) := by
          constructor
          · rintro ⟨hm, hh⟩; exact ⟨List.mem_cons_of_mem _ hm, hh⟩
          · rintro ⟨hm, hh⟩
            rcases List.mem_cons.mp hm with he | hm2
            · exact absurd he.symm hk
            · exact ⟨hm2, hh⟩
        simp only [List.length_nil, Nat.zero_add]
        rw [if_congr this rfl rfl, List.map_cons]
      · intro e he
        have := checkLink_trace_fst net files kv.1 kv.2 e he
        simp only [decide_eq_true_eq]
        rw [this]
        exact hk

/-! ## Helper lemmas: keys of the validation step -/

theorem map_fst_filter_keys {α : Type} (l : List (String × α)) (q : String → Bool) :
    ((l.filter fun kv => q kv.1).map Prod.fst) = (l.map Prod.fst).filter q := by
  induction l with
  | nil => rfl
  | cons kv rest ih => by_cases h : q kv.1 <;> simp [h, ih]

/-- A safe run's validation step: the flip succeeds, and the outcome mapping
and request trace are computed from the surviving flipped entries. -/
theorem checkLinks_safe (net : String → String → NetEvent) (ignore : String → Bool)
    (files : List String) (m : List (String × List String))
    (hsafe : ∀ kv ∈ m, ∀ x ∈ kv.2, x ∉ objectPrototypeKeys) :
    checkLinks net ignore files m =
      some ((((flipEntries m).filter (fun kv => ! ignore kv.1)).map
          (fun kv => (kv.1, (checkLink net files kv.1 kv.2).1)),
        ((flipEntries m).filter (fun kv => ! ignore kv.1)).flatMap
          (fun kv => (checkLink net files kv.1 kv.2).2))) := by
  unfold checkLinks
  rw [flip_safe_eq m hsafe]

/-- The keys of a successful outcome mapping: the flipped keys surviving the
ignore filter. -/
theorem flipped_results_keys (net : String → String → NetEvent) (ignore : String → Bool)
    (files : List String) (m : List (String × List String)) :
    ((((flipEntries m).filter (fun kv => ! ignore kv.1)).map
        (fun kv => (kv.1, (checkLink net files kv.1 kv.2).1))).map Prod.fst) =
      ((flipEntries m).map Prod.fst).filter (fun k => ! ignore k) := by
  rw [List.map_map]
  exact map_fst_filter_keys (flipEntries m) (fun k => ! ignore k)

/-! ## C1 -/

/-- C1 counterexample: the claim's "for every input file set" fails. A file
set citing the reference `valueOf` — an `Object.prototype` property name —
makes the flip step throw a `TypeError` (`output[val] === undefined` is false
for the inherited member, then `output[val].push` is not a function), so the
validation step produces no outcome mapping and `done` is never invoked:
nothing is validated, not even once. -/
theorem c1_counterexample_prototype_reference :
    checkLinks (fun _ _ => NetEvent.response 200) (fun _ => false) ["a.html"]
        [("a.html", ["valueOf"]), ("b.html", ["valueOf"])] = none
    ∧ runDone (fun _ _ => NetEvent.response 200) (fun _ => false) ["a.html"]
        [("a.html", ["valueOf"]), ("b.html", ["valueOf"])] = none :=
  ⟨rfl, rfl⟩

/-- C1, amended: for every input file set none of whose references is an
`Object.prototype` property name (for other inputs the run throws in the flip
step and validates nothing), each distinct reference is validated exactly
once: the validation step succeeds, its outcome mapping has exactly one entry
for a reference that is cited anywhere (and not ignored) — however many
documents cite it, and however many times — and the network-request trace for
that reference is that of a single `validUrl` invocation (at most two
requests) when its protocol routes it to the remote validator, and empty
otherwise. -/
theorem c1_each_distinct_reference_validated_once (net : String → String → NetEvent)
    (ignore : String → Bool) (files : List String)
    (m : List (String × List String)) (r : String)
    (hsafe : ∀ kv ∈ m, ∀ x ∈ kv.2, x ∉ objectPrototypeKeys) :
    ∃ res, checkLinks net ignore files m = some res
    ∧ ((res.1.map Prod.fst).count r =
      if (∃ kv ∈ m, r ∈ kv.2) ∧ ignore r = false then 1 else 0)
    ∧ ((res.2.filter (fun e => e.1 = r)).length =
      if ((∃ kv ∈ m, r ∈ kv.2) ∧ ignore r = false) ∧ isHttpLink r = true
      then (validUrlRun net r "HEAD").2.length else 0)
    ∧ (validUrlRun net r "HEAD").2.length ≤ 2 := by
  have hkeysnd : (((flipEntries m).map Prod.fst).filter (fun k => ! ignore k)).Nodup :=
    (nodup_keys_flipEntries m).filter _
  have hmem : r ∈ ((flipEntries m).map Prod.fst).filter (fun k => ! ignore k) ↔
      (∃ kv ∈ m, r ∈ kv.2) ∧ ignore r = false := by
    rw [List.mem_filter, mem_keys_flipEntries]
    simp
  refine ⟨_, checkLinks_safe net ignore files m hsafe, ?_, ?_,
    validUrlRun_trace_length net r "HEAD"⟩
  · dsimp only
    rw [flipped_results_keys, List.count_eq_of_nodup hkeysnd, if_congr hmem rfl rfl]
  · dsimp only
    have hcomm : ((flipEntries m).filter fun kv => ! ignore kv.1).map Prod.fst =
        ((flipEntries m).map Prod.fst).filter (fun k => ! ignore k) :=
      map_fst_filter_keys (flipEntries m) (fun k => ! ignore k)
    have hknd : (((flipEntries m).filter fun kv => ! ignore kv.1).map Prod.fst).Nodup := by
      rw [hcomm]
      exact hkeysnd
    rw [trace_filter_flatMap net files _ r hknd, hcomm]
    have hc : (r ∈ ((flipEntries m).map Prod.fst).filter (fun k => ! ignore k) ∧
        isHttpLink r = true) ↔
        (((∃ kv ∈ m, r ∈ kv.2) ∧ ignore r = false) ∧ isHttpLink r = true) := by
      rw [hmem]
    rw [if_congr hc rfl rfl]

/-- C1 witness: a safe input in which two documents cite the same reference:
the validation step succeeds and its outcome mapping has exactly one entry
for that reference. -/
theorem c1_witness :
    ∃ res, checkLinks (fun _ _ => NetEvent.response 200) (fun _ => false) ["a.html"]
        [("a.html", ["x"]), ("b.html", ["x"])] = some res
      ∧ (res.1.map Prod.fst).count "x" = 1 := by
  obtain ⟨res, hres, hcount, htrace, hlen⟩ :=
    c1_each_distinct_reference_validated_once (fun _ _ => NetEvent.response 200)
      (fun _ => false) ["a.html"] [("a.html", ["x"]), ("b.html", ["x"])] "x" (by decide)
  refine ⟨res, hres, ?_⟩
  rw [hcount, if_pos ⟨⟨("a.html", ["x"]), by simp, by simp⟩, rfl⟩]

/-! ## C6 -/

/-- C6 counterexample: two failures of the claim. A document citing the same
reference twice produces a duplicated document entry in the flipped mapping —
the claim's "no duplicate document entries" fails — and a document citing an
`Object.prototype`-named reference (`toString`) makes the flip step throw a
`TypeError` instead of producing a mapping in which that reference "occurs as
a key exactly once". -/
theorem c6_counterexample_duplicate_citation :
    flipObjectOfArrays [("d", ["x", "x"])] = some [("x", ["d", "d"])]
    ∧ ¬ (["d", "d"] : List String).Nodup
    ∧ flipObjectOfArrays [("d", ["toString"])] = none :=
  ⟨rfl, by decide, rfl⟩

/-- C6, amended: when no cited reference is an `Object.prototype` property
name, the flip step succeeds and produces the inverse mapping in which every
reference appearing in any document occurs as a key exactly once, and each
key's value lists the citing documents in citation order — one entry per
citation, so a document citing the same reference twice appears twice. (A
cited `Object.prototype`-named reference instead makes the flip step throw a
`TypeError`, producing no mapping.) -/
theorem c6_flip_inverse_mapping (input : List (String × List String)) (r : String)
    (hsafe : ∀ kv ∈ input, ∀ x ∈ kv.2, x ∉ objectPrototypeKeys) :
    ∃ flipped, flipObjectOfArrays input = some flipped
    ∧ (flipped.map Prod.fst).Nodup
    ∧ (r ∈ flipped.map Prod.fst ↔ ∃ kv ∈ input, r ∈ kv.2)
    ∧ getVal flipped r = citations input r :=
  ⟨flipEntries input, flip_safe_eq input hsafe, nodup_keys_flipEntries input,
    mem_keys_flipEntries input r, getVal_flipEntries input r⟩

/-- C6 witness: a safe input where `x` is cited by two documents and `y` by
one: the flip succeeds and maps `x` to its citing documents in order. -/
theorem c6_witness :
    ∃ flipped, flipObjectOfArrays [("d", ["x", "y"]), ("e", ["x"])] = some flipped
      ∧ getVal flipped "x" = ["d", "e"] := by
  obtain ⟨flipped, hf, hnd, hmem, hg⟩ :=
    c6_flip_inverse_mapping [("d", ["x", "y"]), ("e", ["x"])] "x" (by decide)
  exact ⟨flipped, hf, by rw [hg]; rfl⟩

/-! ## C3 -/

/-- C3: The remote validator first issues a `HEAD` request; it retries —
exactly once, as a `GET` to the same URL — if and only if the `HEAD` response
status is 405 (so no `HEAD`→`GET` retry happens on any other failure, and
there is no second retry cycle). After the retry, a `GET` response outside
`[400, 599]` makes the outcome valid, a `GET` 405 yields `HTTP 405` (no
further retry), and a `GET` failure yields its message. -/
theorem c3_head_get_retry_policy (net : String → String → NetEvent) (link : String) :
    ((validUrlRun net link "HEAD").2 =
      if net link "HEAD" = NetEvent.response 405
      then [(link, "HEAD"), (link, "GET")]
      else [(link, "HEAD")])
    ∧ (net link "HEAD" = NetEvent.response 405 →
        ((∀ c, net link "GET" = NetEvent.response c → ¬ (400 ≤ c ∧ c ≤ 599) →
            (validUrlRun net link "HEAD").1 = none)
         ∧ (net link "GET" = NetEvent.response 405 →
            (validUrlRun net link "HEAD").1 = some "HTTP 405")
         ∧ (∀ msg, net link "GET" = NetEvent.failure msg →
            (validUrlRun net link "HEAD").1 = some msg))) := by
  have hretry : net link "HEAD" = NetEvent.response 405 →
      (validUrlRun net link "HEAD").1 = (validUrlRun net link "GET").1 := by
    intro h405
    rw [validUrlRun, h405]
    have hc : (405 : Nat) = 405 ∧ ("HEAD" : String) ≠ "GET" := by simp
    dsimp only
    rw [dif_pos hc]
  have hget : ∀ c, net link "GET" = NetEvent.response c →
      (validUrlRun net link "GET").1 =
        if 400 ≤ c ∧ c ≤ 599 then some ("HTTP " ++ toString c) else none := by
    intro c hc
    rw [validUrlRun, hc]
    have hng : ¬ (c = 405 ∧ ("GET" : String) ≠ "GET") := by simp
    dsimp only
    rw [dif_neg hng]
    by_cases hb : 400 ≤ c ∧ c ≤ 599 <;> simp [hb]
  constructor
  · rw [validUrlRun_trace]
    by_cases h : net link "HEAD" = NetEvent.response 405 <;> simp [h]
  · intro h405
    refine ⟨?_, ?_, ?_⟩
    · intro c hc hb
      rw [hretry h405, hget c hc, if_neg hb]
    · intro hc
      rw [hretry h405, hget 405 hc, if_pos (by norm_num)]
      rfl
    · intro msg hmsg
      rw [hretry h405, validUrlRun, hmsg]

/-- C3 witness: A network answering 405 to `HEAD` and 200 to `GET`:
the validator issues exactly `HEAD` then `GET`, and the outcome is valid. -/
theorem c3_witness :
    (validUrlRun (fun _ m => if m = "HEAD" then NetEvent.response 405 else NetEvent.response 200)
        "http://example.com" "HEAD").2 =
      [("http://example.com", "HEAD"), ("http://example.com", "GET")]
    ∧ (validUrlRun (fun _ m => if m = "HEAD" then NetEvent.response 405 else NetEvent.response 200)
        "http://example.com" "HEAD").1 = none := by
  have h := c3_head_get_retry_policy
    (fun _ m => if m = "HEAD" then NetEvent.response 405 else NetEvent.response 200)
    "http://example.com"
  constructor
  · rw [h.1, if_pos (by simp)]
  · exact (h.2 (by simp)).1 200 (by simp) (by norm_num)

/-! ## C4 -/

/-- C4: Outcome classification of a remote probe, after the retry policy
is exhausted: a status in `[400, 599]` yields the error `HTTP <code>`; a
network-level failure yields the failure's message as the error; any other
response (redirects included) is valid. This holds both for the plain `HEAD`
outcome (when the status is not 405) and after the 405 `GET` retry. -/
theorem c4_outcome_classification (net : String → String → NetEvent) (link : String) :
    (∀ msg, net link "HEAD" = NetEvent.failure msg →
      (validUrlRun net link "HEAD").1 = some msg)
    ∧ (∀ c, net link "HEAD" = NetEvent.response c → c ≠ 405 →
      (validUrlRun net link "HEAD").1 =
        if 400 ≤ c ∧ c ≤ 599 then some ("HTTP " ++ toString c) else none)
    ∧ (net link "HEAD" = NetEvent.response 405 →
        ((∀ msg, net link "GET" = NetEvent.failure msg →
            (validUrlRun net link "HEAD").1 = some msg)
         ∧ (∀ c, net link "GET" = NetEvent.response c →
            (validUrlRun net link "HEAD").1 =
              if 400 ≤ c ∧ c ≤ 599 then some ("HTTP " ++ toString c) else none))) := by
  have hretry : net link "HEAD" = NetEvent.response 405 →
      (validUrlRun net link "HEAD").1 = (validUrlRun net link "GET").1 := by
    intro h405
    rw [validUrlRun, h405]
    have hc : (405 : Nat) = 405 ∧ ("HEAD" : String) ≠ "GET" := by simp
    dsimp only
    rw [dif_pos hc]
  refine ⟨?_, ?_, ?_⟩
  · intro msg hmsg
    rw [validUrlRun, hmsg]
  · intro c hc hne
    rw [validUrlRun, hc]
    have hng : ¬ (c = 405 ∧ ("HEAD" : String) ≠ "GET") := by simp [hne]
    dsimp only
    rw [dif_neg hng]
    by_cases hb : 400 ≤ c ∧ c ≤ 599 <;> simp [hb]
  · intro h405
    constructor
    · intro msg hmsg
      rw [hretry h405, validUrlRun, hmsg]
    · intro c hc
      rw [hretry h405, validUrlRun, hc]
      have hng : ¬ (c = 405 ∧ ("GET" : String) ≠ "GET") := by simp
      dsimp only
      rw [dif_neg hng]
      by_cases hb : 400 ≤ c ∧ c ≤ 599 <;> simp [hb]

/-- C4 witness: A 404 response on `HEAD` classifies as `HTTP 404`, and a
connection failure classifies as its message. -/
theorem c4_witness :
    (validUrlRun (fun _ _ => NetEvent.response 404) "http://broken.example" "HEAD").1 =
      some "HTTP 404"
    ∧ (validUrlRun (fun _ _ => NetEvent.failure "connect ECONNREFUSED")
        "http://down.example" "HEAD").1 = some "connect ECONNREFUSED" := by
  constructor
  · have h := c4_outcome_classification (fun _ _ => NetEvent.response 404) "http://broken.example"
    rw [h.2.1 404 rfl (by norm_num), if_pos (by norm_num)]
    rfl
  · exact (c4_outcome_classification (fun _ _ => NetEvent.failure "connect ECONNREFUSED")
      "http://down.example").1 "connect ECONNREFUSED" rfl

/-! ## C7 -/

/-- C7: Dispatch over a distinct reference is total and exhaustive: a
parsed `http:`/`https:` protocol routes to the remote validator; any other
parsed protocol (`mailto:`, `tel:`, `sms:` and unrecognized schemes included)
yields a valid outcome with no validation and no network request; no protocol
routes to the local resolver over the citing filenames. -/
theorem c7_dispatch_total (net : String → String → NetEvent) (files : List String)
    (filenames : List String) (link : String) :
    (((urlProtocol link = some "http:" ∨ urlProtocol link = some "https:") ∧
        checkLink net files link filenames = validUrlRun net link "HEAD")
     ∨ ((∃ p, urlProtocol link = some p ∧ p ≠ "http:" ∧ p ≠ "https:") ∧
        checkLink net files link filenames = (none, []))
     ∨ (urlProtocol link = none ∧
        checkLink net files link filenames =
          ((if (filenames.filter (fun f => ! validLocal files f link)).isEmpty
            then none else some "not found"), [])))
    ∧ checkLink net files "mailto:user@example.com" filenames = (none, [])
    ∧ checkLink net files "tel:+15551234567" filenames = (none, [])
    ∧ checkLink net files "sms:+15551234567" filenames = (none, [])
    ∧ checkLink net files "foo-bar:baz" filenames = (none, []) := by
  refine ⟨?_, rfl, rfl, rfl, rfl⟩
  cases hp : urlProtocol link with
  | none =>
    refine Or.inr (Or.inr ⟨rfl, ?_⟩)
    unfold checkLink
    rw [hp]
  | some p =>
    by_cases h : p = "http:" ∨ p = "https:"
    · refine Or.inl ⟨?_, ?_⟩
      · rcases h with h | h
        · subst h; exact Or.inl rfl
        · subst h; exact Or.inr rfl
      · unfold checkLink
        rw [hp]
        dsimp only
        rw [if_pos h]
    · refine Or.inr (Or.inl ⟨⟨p, rfl, ?_, ?_⟩, ?_⟩)
      · exact fun he => h (Or.inl he)
      · exact fun he => h (Or.inr he)
      · unfold checkLink
        rw [hp]
        dsimp only
        rw [if_neg h]

/-! ## Helper lemmas: fragment stripping -/

/-- Stripping the fragment never removes a path separator. -/
theorem containsSlash_stripFragAux (cs : List Char) (h : containsSlash cs = true) :
    containsSlash (stripFragAux cs) = true := by
  induction cs with
  | nil => simp [containsSlash] at h
  | cons c rest ih =>
    by_cases hc : c = '#' ∧ ¬ containsSlash rest
    · exfalso
      rcases hc with ⟨rfl, hc2⟩
      apply hc2
      simp only [containsSlash, List.any_cons, Bool.or_eq_true] at h
      simpa [containsSlash] using h
    · rw [stripFragAux, if_neg hc]
      simp only [containsSlash, List.any_cons, Bool.or_eq_true] at h ⊢
      rcases h with h1 | h2
      · exact Or.inl h1
      · exact Or.inr (ih h2)

/-- Fragment stripping is idempotent. -/
theorem stripFragAux_idem (cs : List Char) : stripFragAux (stripFragAux cs) = stripFragAux cs := by
  induction cs with
  | nil => rfl
  | cons c rest ih =>
    by_cases hc : c = '#' ∧ ¬ containsSlash rest
    · rw [stripFragAux, if_pos hc]
      rfl
    · rw [stripFragAux, if_neg hc, stripFragAux]
      rw [if_neg, ih]
      rintro ⟨h1, h2⟩
      subst h1
      by_cases hs : containsSlash rest
      · exact h2 (containsSlash_stripFragAux rest hs)
      · exact hc ⟨rfl, hs⟩

theorem stripFragment_idem (dest : String) :
    stripFragment (stripFragment dest) = stripFragment dest := by
  unfold stripFragment
  congr 1
  exact stripFragAux_idem dest.data

/-! ## C9 -/

/-- C9: Local resolution first strips the trailing fragment — resolving a
reference and resolving its fragment-stripped form agree — and a reference
that is then the empty string, `.` or `./`, before or after joining onto the
citing document's directory, is always judged valid as a self-reference. -/
theorem c9_fragment_and_self_reference (files : List String) (src dest : String) :
    (validLocal files src dest = validLocal files src (stripFragment dest))
    ∧ ((stripFragment dest = "" ∨ stripFragment dest = "." ∨ stripFragment dest = "./") →
        validLocal files src dest = true)
    ∧ ((pjoin (dirname src) (stripFragment dest) = "" ∨
        pjoin (dirname src) (stripFragment dest) = "." ∨
        pjoin (dirname src) (stripFragment dest) = "./") →
        validLocal files src dest = true) := by
  refine ⟨?_, ?_, ?_⟩
  · unfold validLocal
    rw [stripFragment_idem]
  · intro h
    unfold validLocal
    rw [if_pos h]
  · intro h
    unfold validLocal
    by_cases hself : stripFragment dest = "" ∨ stripFragment dest = "." ∨
        stripFragment dest = "./"
    · rw [if_pos hself]
    · rw [if_neg hself, if_pos h]

/-- C9 witness: A pure fragment reference strips to the empty string and
is valid; `.` is valid; and a reference resolving to the citing document's own
directory (here `..` from `a/b.html`) is valid. -/
theorem c9_witness :
    validLocal [] "docs/readme.html" "#section" = true
    ∧ validLocal [] "a/b.html" ".." = true := by
  constructor
  · exact (c9_fragment_and_self_reference [] "docs/readme.html" "#section").2.1
      (Or.inl (by decide))
  · exact (c9_fragment_and_self_reference [] "a/b.html" "..").2.2
      (Or.inr (Or.inl (by decide)))

/-! ## C2 -/

/-- C2 counterexample: The claim's characterisation fails: from document
`index.html`, the reference `constructor` joins to the path `constructor`,
which is neither a key of the file set `{index.html}` nor has an
`index.html` variant that is — yet `validLocal` judges it valid, because the
JavaScript `in` operator finds `constructor` on `Object.prototype`. -/
theorem c2_counterexample_prototype_key :
    validLocal ["index.html"] "index.html" "constructor" = true
    ∧ validLocalSpecOrig ["index.html"] "index.html" "constructor" = false := by
  constructor
  · decide
  · decide

/-- C2, amended: Local resolution returns valid exactly as the claim
states — self-references, an exact key match of the joined path, or an exact
key match of its `index.html` variant — except that the joined path and its
`index.html` variant are additionally accepted when they are `Object.prototype`
property names (which the implementation's `in` operator reports present).
In particular `./about` is valid when `about/index.html` exists and `about`
does not. -/
theorem c2_local_resolution (files : List String) (src dest : String) :
    (validLocal files src dest = validLocalSpecAmended files src dest)
    ∧ validLocal ["about/index.html"] "index.html" "./about" = true
    ∧ validLocalSpecOrig ["about/index.html"] "index.html" "./about" = true := by
  refine ⟨?_, by decide, by decide⟩
  unfold validLocal validLocalSpecAmended jsIn
  rfl

/-! ## Helper lemmas: lookups and the error-report object -/

theorem findEntry_fst {α : Type} (l : List (String × α)) (k : String)
    (kv : String × α) (h : findEntry l k = some kv) : kv.1 = k := by
  induction l with
  | nil => simp [findEntry] at h
  | cons kv2 rest ih =>
    by_cases hk : kv2.1 = k
    · rw [findEntry, if_pos hk] at h
      cases h
      exact hk
    · rw [findEntry, if_neg hk] at h
      exact ih h

theorem findEntry_isSome {α : Type} (l : List (String × α)) (k : String) :
    (findEntry l k).isSome ↔ k ∈ l.map Prod.fst := by
  induction l with
  | nil => simp [findEntry]
  | cons kv rest ih =>
    by_cases hk : kv.1 = k
    · simp [findEntry, hk]
    · simp only [findEntry, if_neg hk, ih, List.map_cons, List.mem_cons]
      constructor
      · exact Or.inr
      · rintro (he | hm)
        · exact absurd he.symm hk
        · exact hm

theorem getVal_not_mem (l : List (String × List String)) (k : String)
    (h : k ∉ l.map Prod.fst) : getVal l k = [] := by
  have hfind : findEntry l k = none := by
    cases hv : findEntry l k with
    | none => rfl
    | some kv =>
      exact absurd ((findEntry_isSome l k).mp (by rw [hv]; rfl)) h
  rw [getVal, lookupJs, hfind]
  rfl

theorem getVal_of_mem_nodup (l : List (String × List String)) (k : String) (v : List String)
    (hnd : (l.map Prod.fst).Nodup) (hm : (k, v) ∈ l) : getVal l k = v := by
  induction l with
  | nil => simp at hm
  | cons kv rest ih =>
    simp only [List.map_cons, List.nodup_cons] at hnd
    rcases List.mem_cons.mp hm with he | hm2
    · rw [← he, getVal_cons, if_pos rfl]
    · have hk : kv.1 ≠ k := by
        intro he2
        exact hnd.1 (he2 ▸ List.mem_map_of_mem Prod.fst hm2)
      rw [getVal_cons, if_neg hk]
      exact ih hnd.2 hm2

theorem findEntry_filter {α : Type} (l : List (String × α)) (q : String × α → Bool)
    (k : String) (hq : ∀ kv : String × α, kv.1 = k → q kv = true) :
    findEntry (l.filter q) k = findEntry l k := by
  induction l with
  | nil => rfl
  | cons kv rest ih =>
    by_cases hk : kv.1 = k
    · rw [List.filter_cons_of_pos (hq kv hk), findEntry, if_pos hk, findEntry, if_pos hk]
    · by_cases hqv : q kv
      · rw [List.filter_cons_of_pos hqv, findEntry, if_neg hk, findEntry, if_neg hk, ih]
      · rw [List.filter_cons_of_neg (by simpa using hqv), findEntry, if_neg hk, ih]

theorem findEntry_map_snd {α : Type} (l : List (String × List String))
    (f : String × List String → α) (k : String) :
    findEntry (l.map (fun kv => (kv.1, f kv))) k =
      (findEntry l k).map (fun kv => (kv.1, f kv)) := by
  induction l with
  | nil => rfl
  | cons kv rest ih =>
    by_cases hk : kv.1 = k
    · rw [List.map_cons, findEntry, findEntry]
      dsimp only
      rw [if_pos hk, if_pos hk]
      rfl
    · rw [List.map_cons, findEntry, findEntry]
      dsimp only
      rw [if_neg hk, if_neg hk, ih]

/-- Writing with `setVal` on an absent key appends the entry. -/
theorem setVal_not_mem (obj : List (String × List String)) (k : String) (v : List String)
    (h : k ∉ obj.map Prod.fst) : setVal obj k v = obj ++ [(k, v)] := by
  induction obj with
  | nil => rfl
  | cons kv rest ih =>
    simp only [List.map_cons, List.mem_cons] at h
    push_neg at h
    rw [setVal, if_neg (fun he => h.1 he.symm), ih h.2]
    rfl

/-- The error-report object, closed form: given distinct document keys none of
which occur in the accumulator, the fold appends one block per document with a
non-empty error list. -/
theorem ftle_foldl_blocks (results : List (String × Option String))
    (ftl : List (String × List String)) (obj : List (String × List String))
    (hnd : (ftl.map Prod.fst).Nodup)
    (hdisj : ∀ k ∈ ftl.map Prod.fst, k ∉ obj.map Prod.fst) :
    ftl.foldl
      (fun obj kv =>
        if (errLines results kv.2).isEmpty then obj else setVal obj kv.1 (errLines results kv.2))
      obj =
    obj ++ ftl.filterMap
      (fun kv => if (errLines results kv.2).isEmpty then none
                 else some (kv.1, errLines results kv.2)) := by
  induction ftl generalizing obj with
  | nil => simp
  | cons kv rest ih =>
    simp only [List.map_cons, List.nodup_cons] at hnd
    have hdisj1 : kv.1 ∉ obj.map Prod.fst :=
      hdisj kv.1 (by simp)
    by_cases he : (errLines results kv.2).isEmpty
    · rw [List.foldl_cons, if_pos he, List.filterMap_cons_none (by rw [if_pos he]),
        ih obj hnd.2 (fun k hk => hdisj k (List.mem_cons_of_mem _ hk))]
    · have hdisj2 : ∀ k ∈ rest.map Prod.fst,
          k ∉ (obj ++ [(kv.1, errLines results kv.2)]).map Prod.fst := by
        intro k hk
        simp only [List.map_append, List.mem_append, List.map_cons, List.map_nil,
          List.mem_singleton]
        push_neg
        exact ⟨hdisj k (List.mem_cons_of_mem _ hk), fun he2 => hnd.1 (he2 ▸ hk)⟩
      rw [List.foldl_cons, if_neg he,
        List.filterMap_cons_some (by rw [if_neg he]), setVal_not_mem obj kv.1 _ hdisj1,
        ih _ hnd.2 hdisj2, List.append_assoc]
      rfl

/-- Keys of the filterMap block list: the documents passing the filter. -/
theorem keys_filterMap_blocks (results : List (String × Option String))
    (ftl : List (String × List String)) :
    ((ftl.filterMap
      (fun kv => if (errLines results kv.2).isEmpty then none
                 else some (kv.1, errLines results kv.2))).map Prod.fst) =
      ((ftl.filter (fun kv => ! (errLines results kv.2).isEmpty)).map Prod.fst) := by
  induction ftl with
  | nil => rfl
  | cons kv rest ih =>
    by_cases he : (errLines results kv.2).isEmpty
    · rw [List.filterMap_cons_none (by rw [if_pos he]),
        List.filter_cons_of_neg (by simp [he]), ih]
    · rw [List.filterMap_cons_some (by rw [if_neg he]),
        List.filter_cons_of_pos (by simp [he]), List.map_cons, List.map_cons, ih]

/-- Keys of the error-report object: the documents with at least one truthy
outcome, in input order. -/
theorem ftle_keys (ftl : List (String × List String))
    (results : List (String × Option String)) (hnd : (ftl.map Prod.fst).Nodup) :
    ((filenamesToLinkErrors ftl results).map Prod.fst) =
      ((ftl.filter (fun kv => ! (errLines results kv.2).isEmpty)).map Prod.fst) := by
  unfold filenamesToLinkErrors
  rw [ftle_foldl_blocks results ftl [] hnd (by simp)]
  rw [List.nil_append, keys_filterMap_blocks]

/-- Value of the error-report object at any document: the formatted truthy
lines of that document's reference list (empty when the document is absent). -/
theorem ftle_getVal (ftl : List (String × List String))
    (results : List (String × Option String)) (hnd : (ftl.map Prod.fst).Nodup)
    (doc : String) :
    getVal (filenamesToLinkErrors ftl results) doc = errLines results (getVal ftl doc) := by
  unfold filenamesToLinkErrors
  rw [ftle_foldl_blocks results ftl [] hnd (by simp), List.nil_append]
  induction ftl with
  | nil => rfl
  | cons kv rest ih =>
    simp only [List.map_cons, List.nodup_cons] at hnd
    by_cases hk : kv.1 = doc
    · subst hk
      rw [getVal_cons, if_pos rfl]
      by_cases he : (errLines results kv.2).isEmpty
      · rw [List.filterMap_cons_none (by rw [if_pos he])]
        rw [getVal_not_mem, List.isEmpty_iff.mp he]
        rw [keys_filterMap_blocks]
        intro hm
        exact hnd.1 (List.map_subset Prod.fst (List.filter_sublist _).subset hm)
      · rw [List.filterMap_cons_some (by rw [if_neg he]), getVal_cons, if_pos rfl]
    · rw [getVal_cons, if_neg hk]
      by_cases he : (errLines results kv.2).isEmpty
      · rw [List.filterMap_cons_none (by rw [if_pos he]), ih hnd.2]
      · rw [List.filterMap_cons_some (by rw [if_neg he]), getVal_cons, if_neg hk, ih hnd.2]

/-! ## C5 -/

/-- C5: The rendered report is the spec's: documents with at least one
erroneous reference, sorted lexicographically, each block holding that
document's formatted `<reference> (<reason>)` lines sorted lexicographically,
blocks joined by blank lines, documents with zero erroneous references
omitted — and the rendering depends on the outcome mapping only through the
per-reference lookup, hence not on the completion order in which the mapping's
entries were produced. -/
theorem c5_report_rendering (ftl : List (String × List String))
    (hnd : (ftl.map Prod.fst).Nodup) :
    (∀ results, renderReport (filenamesToLinkErrors ftl results) =
        reportSpec ftl (resultVal results))
    ∧ (∀ r1 r2 : List (String × Option String),
        (∀ link, resultVal r1 link = resultVal r2 link) →
        renderReport (filenamesToLinkErrors ftl r1) =
          renderReport (filenamesToLinkErrors ftl r2)) := by
  have hmain : ∀ results, renderReport (filenamesToLinkErrors ftl results) =
      reportSpec ftl (resultVal results) := by
    intro results
    unfold renderReport reportSpec
    rw [ftle_keys ftl results hnd]
    have hfilter : (ftl.filter (fun kv => ! (errLines results kv.2).isEmpty)) =
        (ftl.filter
          (fun kv => ! (kv.2.filter (fun l => truthy (resultVal results l))).isEmpty)) := by
      apply List.filter_congr
      intro kv _
      unfold errLines
      rw [show ((kv.2.filter (fun link => truthy (resultVal results link))).map
          (linkErrorLine (resultVal results))).isEmpty =
          (kv.2.filter (fun link => truthy (resultVal results link))).isEmpty from
        by cases kv.2.filter (fun link => truthy (resultVal results link)) <;> rfl]
    rw [hfilter]
    have hfun : (fun filename => filename ++ ":\n" ++
          String.intercalate "\n"
            ((sortStrings (getVal (filenamesToLinkErrors ftl results) filename)).map
              (fun link => "  " ++ link))) =
        (fun doc => doc ++ ":\n" ++
          String.intercalate "\n"
            ((sortStrings
              (((getVal ftl doc).filter (fun l => truthy (resultVal results l))).map
                (linkErrorLine (resultVal results)))).map (fun line => "  " ++ line))) := by
      funext doc
      rw [ftle_getVal ftl results hnd doc]
      rfl
    rw [hfun]
  refine ⟨hmain, fun r1 r2 hpt => ?_⟩
  rw [hmain r1, hmain r2]
  exact congrArg (reportSpec ftl) (funext hpt)

/-- C5 witness: A concrete two-document input: the render of the built
error object equals the spec's sorted report. -/
theorem c5_witness :
    renderReport (filenamesToLinkErrors [("b.html", ["x"]), ("a.html", ["x"])]
        [("x", some "not found")]) =
      reportSpec [("b.html", ["x"]), ("a.html", ["x"])]
        (resultVal [("x", some "not found")]) :=
  (c5_report_rendering [("b.html", ["x"]), ("a.html", ["x"])] (by decide)).1
    [("x", some "not found")]

/-! ## Helper lemmas: the outcome stored for one reference -/

/-- The flip step's entry for a cited reference. -/
theorem findEntry_flipEntries (m : List (String × List String)) (r : String)
    (hcited : ∃ kv ∈ m, r ∈ kv.2) :
    findEntry (flipEntries m) r = some (r, citations m r) := by
  have hsome : (findEntry (flipEntries m) r).isSome :=
    (findEntry_isSome _ r).mpr ((mem_keys_flipEntries m r).mpr hcited)
  cases hv : findEntry (flipEntries m) r with
  | none => rw [hv] at hsome; simp at hsome
  | some kv =>
    have hfst := findEntry_fst _ _ _ hv
    have hsnd : kv.2 = citations m r := by
      have hgv := getVal_flipEntries m r
      rw [getVal, lookupJs, hv] at hgv
      simpa using hgv
    have : kv = (r, citations m r) := by
      cases kv
      simp_all
    rw [this]

/-- The outcome recorded by a successful validation step for a cited,
non-ignored reference: `checkLink` applied to the reference and its full
citation list. -/
theorem resultVal_flipped (net : String → String → NetEvent) (ignore : String → Bool)
    (files : List String) (m : List (String × List String)) (r : String)
    (hig : ignore r = false) (hcited : ∃ kv ∈ m, r ∈ kv.2) :
    resultVal (((flipEntries m).filter (fun kv => ! ignore kv.1)).map
        (fun kv => (kv.1, (checkLink net files kv.1 kv.2).1))) r =
      (checkLink net files r (citations m r)).1 := by
  unfold resultVal lookupJs
  rw [findEntry_map_snd, findEntry_filter _ _ r
    (by intro kv hk; rw [hk, hig]; rfl), findEntry_flipEntries m r hcited]
  rfl

/-! ## C10 -/

/-- C10 counterexample: the claim's premises hold — the scheme-less reference
`x.html` is cited by the two documents `a.html` and `sub/b.html`, and fails
to resolve from `a.html` — yet no outcome is recorded for it and no report
lists it, because the co-reference `toString` (an `Object.prototype` property
name) makes the flip step throw a `TypeError` before any validation runs, so
`done` is never invoked. -/
theorem c10_counterexample_prototype_coreference :
    checkLinks (fun _ _ => NetEvent.failure "net") (fun _ => false)
        ["sub/x.html", "sub/b.html", "a.html"]
        [("a.html", ["x.html", "toString"]), ("sub/b.html", ["x.html"])] = none
    ∧ runDone (fun _ _ => NetEvent.failure "net") (fun _ => false)
        ["sub/x.html", "sub/b.html", "a.html"]
        [("a.html", ["x.html", "toString"]), ("sub/b.html", ["x.html"])] = none
    ∧ validLocal ["sub/x.html", "sub/b.html", "a.html"] "a.html" "x.html" = false :=
  ⟨rfl, rfl, by decide⟩

/-- C10, amended: provided no reference extracted from the documents is an
`Object.prototype` property name (otherwise the flip step throws a
`TypeError` before any outcome exists), a scheme-less reference cited by two
(or more) distinct documents for which local resolution fails from at least
one citing document gets the single recorded outcome `not found`, and the
report lists the formatted line for that reference under every document that
cites it — including documents from which it resolves. -/
theorem c10_shared_reference_error_propagation (net : String → String → NetEvent)
    (ignore : String → Bool) (files : List String) (m : List (String × List String))
    (r d1 d2 : String) (ls1 ls2 : List String)
    (hsafe : ∀ kv ∈ m, ∀ x ∈ kv.2, x ∉ objectPrototypeKeys)
    (hnd : (m.map Prod.fst).Nodup)
    (hproto : urlProtocol r = none)
    (hig : ignore r = false)
    (h1 : (d1, ls1) ∈ m) (h1r : r ∈ ls1)
    (h2 : (d2, ls2) ∈ m) (h2r : r ∈ ls2)
    (hne : d1 ≠ d2)
    (hfail : validLocal files d1 r = false) :
    ∃ res, checkLinks net ignore files m = some res
    ∧ resultVal res.1 r = some "not found"
    ∧ ∀ doc links, (doc, links) ∈ m → r ∈ links →
        (r ++ " (not found)") ∈ getVal (filenamesToLinkErrors m res.1) doc := by
  have hcited : ∃ kv ∈ m, r ∈ kv.2 := ⟨(d1, ls1), h1, h1r⟩
  have hd1 : d1 ∈ citations m r := by
    unfold citations
    rw [List.mem_flatMap]
    exact ⟨(d1, ls1), h1, List.mem_map.mpr ⟨r, List.mem_filter.mpr ⟨h1r, by simp⟩, rfl⟩⟩
  have houtcome : (checkLink net files r (citations m r)).1 = some "not found" := by
    unfold checkLink
    rw [hproto]
    dsimp only
    rw [if_neg]
    intro hempty
    rw [List.isEmpty_iff] at hempty
    have hd1f : d1 ∈ (citations m r).filter (fun filename => ! validLocal files filename r) :=
      List.mem_filter.mpr ⟨hd1, by rw [hfail]; rfl⟩
    rw [hempty] at hd1f
    simp at hd1f
  have hres : resultVal (((flipEntries m).filter (fun kv => ! ignore kv.1)).map
      (fun kv => (kv.1, (checkLink net files kv.1 kv.2).1))) r = some "not found" :=
    (resultVal_flipped net ignore files m r hig hcited).trans houtcome
  refine ⟨_, checkLinks_safe net ignore files m hsafe, hres, ?_⟩
  intro doc links hdm hrl
  dsimp only
  rw [ftle_getVal m _ hnd doc, getVal_of_mem_nodup m doc links hnd hdm]
  unfold errLines
  apply List.mem_map.mpr
  refine ⟨r, List.mem_filter.mpr ⟨hrl, by rw [hres]; rfl⟩, ?_⟩
  unfold linkErrorLine
  rw [hres, String.append_assoc, String.append_assoc]
  rfl

/-- C10 witness: `x.html` is cited by `a.html` (where it does not resolve)
and by `sub/b.html` (where `sub/x.html` exists, so it resolves): the run
succeeds, records `not found` once, and the report lists the formatted line
under `sub/b.html` as well. -/
theorem c10_witness :
    ∃ res, checkLinks (fun _ _ => NetEvent.failure "net") (fun _ => false)
        ["sub/x.html", "sub/b.html", "a.html"]
        [("a.html", ["x.html"]), ("sub/b.html", ["x.html"])] = some res
    ∧ resultVal res.1 "x.html" = some "not found"
    ∧ ("x.html" ++ " (not found)") ∈
        getVal (filenamesToLinkErrors [("a.html", ["x.html"]), ("sub/b.html", ["x.html"])]
          res.1) "sub/b.html" := by
  obtain ⟨res, hres, hout, hrep⟩ := c10_shared_reference_error_propagation
    (fun _ _ => NetEvent.failure "net") (fun _ => false)
    ["sub/x.html", "sub/b.html", "a.html"]
    [("a.html", ["x.html"]), ("sub/b.html", ["x.html"])]
    "x.html" "a.html" "sub/b.html" ["x.html"] ["x.html"]
    (by decide) (by decide) (by decide) rfl (by decide) (by decide) (by decide)
    (by decide) (by decide) (by decide)
  exact ⟨res, hres, hout, hrep "sub/b.html" ["x.html"] (by decide) (by decide)⟩

/-! ## C8 -/

/-- C8, code bug: with one broken link the run completes without throwing but
does not signal exactly one outcome: `done` is invoked with the formatted
failure message and then — because the `done(message)` call is not followed
by a `return`, unlike the `done(err)` branch just above it — invoked a second
time with no argument, signalling success after failure. -/
theorem c8_done_called_twice :
    runDone (fun _ _ => NetEvent.failure "net") (fun _ => false) ["a.html"]
        [("a.html", ["missing.html"])] =
      some [some "Broken links found:\n\na.html:\n  missing.html (not found)", none]
    ∧ ∃ calls, runDone (fun _ _ => NetEvent.failure "net") (fun _ => false) ["a.html"]
        [("a.html", ["missing.html"])] = some calls ∧ calls.length = 2 :=
  ⟨rfl, ⟨[some "Broken links found:\n\na.html:\n  missing.html (not found)", none],
    rfl, rfl⟩⟩
